import Mathlib

/-!
Verification of the code-analysis report-generation system
(`src/codesystem/crew.py`, `src/codesystem/main.py`).

Strings are embedded as `List Char` (`Str`), documents as lists of
heading/paragraph elements, and the dynamic Python data (configuration
dicts, task graphs) as association lists and inductive types.  Every
definition is a direct translation of the corresponding Python function;
`datetime.now()` timestamps are passed in as parameters.
-/

abbrev Str := List Char

/-! ## Text normalization (`main.py`, `clean_text`) -/

/-- Python `str.isspace` for the ASCII whitespace characters stripped by
`str.strip()` (the source only ever feeds ASCII artifacts here). -/
def isPySpace (c : Char) : Bool :=
  c = ' ' || c = '\t' || c = '\n' || c = '\r' || c = '\x0b' || c = '\x0c'

/-- Python `str.strip()`: drop leading and trailing whitespace. -/
def pyStrip (l : Str) : Str :=
  ((l.dropWhile isPySpace).reverse.dropWhile isPySpace).reverse

/-- One regex pass `re.sub(a ++ b, rep, l)` for a two-character pattern:
leftmost, non-overlapping replacement of the adjacent pair `a, b` by `rep`.
Models `re.sub(r'\\n', ' ', text)` and `re.sub(r'\\t', '    ', text)`. -/
def replPair (a b : Char) (rep : Str) : Str → Str
  | [] => []
  | [c] => [c]
  | c1 :: c2 :: rest =>
    if c1 = a ∧ c2 = b then rep ++ replPair a b rep rest
    else c1 :: replPair a b rep (c2 :: rest)

/-- `re.sub(r'\n+', '\n', text)`: collapse each run of newlines to one. -/
def collapseNl : Str → Str
  | [] => []
  | [c] => [c]
  | c1 :: c2 :: rest =>
    if c1 = '\n' ∧ c2 = '\n' then collapseNl (c2 :: rest)
    else c1 :: collapseNl (c2 :: rest)

/-- `text.replace('\r', '')`. -/
def removeCR (l : Str) : Str := l.filter (fun c => c != '\r')

/-- Replacement for a literal `\n`: a single space. -/
def litNlRep : Str := [' ']

/-- Replacement for a literal `\t`: four spaces. -/
def litTabRep : Str := [' ', ' ', ' ', ' ']

/-- `clean_text` from `main.py` (string branch; non-strings are first
converted with `str()`, which the embedding represents by already
receiving the string): replace literal `\n` with a space, literal `\t`
with four spaces, collapse real newline runs, remove carriage returns,
then strip. -/
def clean_text (l : Str) : Str :=
  pyStrip (removeCR (collapseNl
    (replPair '\\' 't' litTabRep (replPair '\\' 'n' litNlRep l))))

/-- `c1, c2` never occur adjacently (in this order) in the list. -/
def noPair (a b : Char) : Str → Bool
  | c1 :: c2 :: rest => !(c1 == a && c2 == b) && noPair a b (c2 :: rest)
  | _ => true

/-! Spec-side restatement of the normalization pipeline, written with
right folds instead of the source's left-to-right scans; used to check
the narrative description of `clean_text` against the translation. -/

/-- Spec reading of "replace each literal two-character escape
`backslash-b` by `rep`", processing the string from the right. -/
def subEscSpec (b : Char) (rep : Str) (l : Str) : Str :=
  l.foldr (fun c acc =>
    if c = '\\' ∧ acc.head? = some b then rep ++ acc.tail else c :: acc) []

/-- Spec reading of "collapse every run of two or more real line breaks
into one", processing the string from the right. -/
def collapseNlSpec (l : Str) : Str :=
  l.foldr (fun c acc =>
    if c = '\n' ∧ acc.head? = some '\n' then acc else c :: acc) []

/-- The normalization pipeline exactly as the specification narrates it:
literal `\n` to one space, literal `\t` to four spaces, newline runs
collapsed, carriage returns removed, ends trimmed. -/
def normalizeSpec (l : Str) : Str :=
  pyStrip ((collapseNlSpec (subEscSpec 't' litTabRep
    (subEscSpec 'n' litNlRep l))).filter (fun c => c != '\r'))

/-! ## Report documents -/

/-- One structural element written into the DOCX document: a heading of
a given level, or a body paragraph. -/
inductive DocElem where
  | heading (level : Nat) (text : Str)
  | para (text : Str)
deriving DecidableEq

/-! ## Free-text split mode (`crew.py`, `Codesystem.save_report`) -/

/-- Prepend a character to the first chunk of a split result. -/
def consHead (c : Char) : List Str → List Str
  | [] => [[c]]
  | h :: t => (c :: h) :: t

/-- Python `content.split('\n# ')`: split on each (leftmost,
non-overlapping) occurrence of the exact three-character separator. -/
def splitSections : Str → List Str
  | c1 :: c2 :: c3 :: rest =>
    if c1 = '\n' ∧ c2 = '#' ∧ c3 = ' ' then [] :: splitSections rest
    else consHead c1 (splitSections (c2 :: c3 :: rest))
  | l => [l]

/-- Whether the three-character separator `'\n', '#', ' '` occurs. -/
def hasSep : Str → Bool
  | c1 :: c2 :: c3 :: rest =>
    (c1 == '\n' && c2 == '#' && c3 == ' ') || hasSep (c2 :: c3 :: rest)
  | _ => false

/-- Python `section.split('\n', 1)`: the part before the first newline,
and — when a newline exists — the remainder after it. -/
def splitFirstNl (l : Str) : Str × Option Str :=
  match l.findIdx? (fun c => c == '\n') with
  | some i => (l.take i, some (l.drop (i + 1)))
  | none => (l, none)

/-- The loop body of `save_report` for one chunk after the first:
skipped entirely when the chunk strips to empty, otherwise a level-1
heading from its first line plus, when present, a paragraph holding the
rest.  No text normalization is applied in this code path. -/
def sectionElems (s : Str) : List DocElem :=
  if pyStrip s = [] then []
  else DocElem.heading 1 (splitFirstNl s).1 ::
    ((splitFirstNl s).2.map DocElem.para).toList

/-- The document built by `save_report`: the fixed top title, the first
chunk as a paragraph (always, even when empty), then heading/paragraph
pairs for the remaining non-blank chunks. -/
def save_report_doc (content : Str) : List DocElem :=
  DocElem.heading 0 ("Code Analysis Report".toList)
    :: DocElem.para ((splitSections content).headD [])
    :: ((splitSections content).tail.map sectionElems).flatten

/-! ## Report file naming (`crew.py`, `Codesystem.save_report`) -/

/-- One character of `re.sub(r'[^\w\-_]', '_', base)` over ASCII input:
word characters (alphanumeric or underscore) and hyphens are kept,
everything else becomes an underscore. -/
def sanitizeChar (c : Char) : Char :=
  if c.isAlphanum || c = '_' || c = '-' then c else '_'

/-- `re.sub(r'[^\w\-_]', '_', base)` over ASCII input. -/
def sanitizeBase (l : Str) : Str := l.map sanitizeChar

/-- Split a path on `/`. -/
def splitSlash (l : Str) : List Str :=
  l.foldr (fun c acc => if c = '/' then [] :: acc else consHead c acc) [[]]

/-- `pathlib.PurePath(p).name`: the final path component; empty `''` and
`'.'` components are dropped by the path parser, so paths such as `"."`
or `"/"` have an empty name. -/
def pathName (l : Str) : Str :=
  (((splitSlash l).filter (fun c => c ≠ [] ∧ c ≠ ['.'])).getLast?).getD []

/-- `str.rfind('.')`: index of the last dot, if any. -/
def rfindDot (l : Str) : Option Nat :=
  ((l.reverse).findIdx? (fun c => c == '.')).map (fun j => l.length - 1 - j)

/-- `pathlib.PurePath(p).stem` given the final component: the name with
its suffix removed, where a dot at position 0 or at the very end does
not start a suffix. -/
def stemOfName (name : Str) : Str :=
  match rfindDot name with
  | some i => if 0 < i ∧ i < name.length - 1 then name.take i else name
  | none => name

/-- `Path(file_name).stem`. -/
def pathStem (l : Str) : Str := stemOfName (pathName l)

/-- The artifact filename chosen by `save_report`: for a truthy
`file_name` hint, the sanitized stem of the hint plus
`_analysis_<timestamp>.docx`; otherwise `<filename_base>_<timestamp>.docx`
(`kickoff` passes `filename_base = "code_analysis_report"`). -/
def saveReportFilename (filename_base file_name timestamp : Str) : Str :=
  if file_name ≠ [] then
    sanitizeBase (pathStem file_name) ++ "_analysis_".toList ++ timestamp
      ++ ".docx".toList
  else
    filename_base ++ "_".toList ++ timestamp ++ ".docx".toList

/-! ## Structured mode (`main.py`, `prepare_inputs` / `generate_docx_report`) -/

/-- The literal placeholder used for absent outputs. -/
def noOutput : Str := "No output available".toList

/-- `inputs.get(key, 'No output available')` over an association list. -/
def getOut (inputs : List (Str × Str)) (k : Str) : Str :=
  (List.lookup k inputs).getD noOutput

/-- Python `f"...{x}"` on an `inputs.get('file_name')` result: `None`
prints as the literal `None`. -/
def pyOptStr (o : Option Str) : Str := o.getD ("None".toList)

/-- `prepare_inputs` from `main.py`: note the test output is stored
under the key `code_test_coverage` even though it is read from
`agent_outputs` under `code_test_output`. -/
def prepare_inputs (file_path code_content : Str)
    (agent_outputs : List (Str × Str)) : List (Str × Str) :=
  [ ("code_to_analyze".toList, code_content),
    ("file_name".toList, file_path),
    ("code_analysis_output".toList, getOut agent_outputs "code_analysis_output".toList),
    ("security_analysis_output".toList, getOut agent_outputs "security_analysis_output".toList),
    ("performance_analysis_output".toList, getOut agent_outputs "performance_analysis_output".toList),
    ("code_test_coverage".toList, getOut agent_outputs "code_test_output".toList),
    ("best_practices_output".toList, getOut agent_outputs "best_practices_output".toList) ]

/-- `generate_docx_report` from `main.py`: a fixed title, the file-name
paragraph, then five fixed heading/paragraph sections, each body passed
through `clean_text`.  `inputs` values are strings here, so the
`hasattr(code_analysis, 'result')` branch of the source never fires.
All lookups use defaults, so no key can raise. -/
def generate_docx_report (inputs : List (Str × Str)) : List DocElem :=
  [ DocElem.heading 0 ("Generated Report".toList),
    DocElem.para ("File: ".toList ++ pyOptStr (List.lookup "file_name".toList inputs)),
    DocElem.heading 1 ("Code Analysis Output".toList),
    DocElem.para (clean_text (getOut inputs "code_analysis_output".toList)),
    DocElem.heading 1 ("Security Analysis Output".toList),
    DocElem.para (clean_text (getOut inputs "security_analysis_output".toList)),
    DocElem.heading 1 ("Performance Analysis Output".toList),
    DocElem.para (clean_text (getOut inputs "performance_analysis_output".toList)),
    DocElem.heading 1 ("Architecture Analysis Output".toList),
    DocElem.para (clean_text (getOut inputs "code_test_output".toList)),
    DocElem.heading 1 ("Best Practices Output".toList),
    DocElem.para (clean_text (getOut inputs "best_practices_output".toList)) ]

/-- The heading/paragraph section pairs of a document, in order. -/
def sectionsOf : List DocElem → List (Str × Str)
  | DocElem.heading 1 t :: DocElem.para b :: rest => (t, b) :: sectionsOf rest
  | _ :: rest => sectionsOf rest
  | [] => []

/-- All paragraph bodies of a document, in order. -/
def paraBodies (l : List DocElem) : List Str :=
  l.filterMap (fun e => match e with | DocElem.para b => some b | _ => none)

/-- The raw (un-normalized) bodies `save_report` writes: the lead chunk,
then for each kept later chunk the text after its first newline. -/
def splitBodies (content : Str) : List Str :=
  (splitSections content).headD [] ::
    (splitSections content).tail.filterMap
      (fun s => if pyStrip s = [] then none else (splitFirstNl s).2)

/-! ## Task graph construction (`crew.py`, `Codesystem.crew`) -/

/-- One entry of the parsed `agents.yaml` mapping. -/
structure AgentCfg where
  role : Str
  goal : Str
  backstory : Str
deriving DecidableEq

/-- A constructed `Agent` (the `verbose=True` flag is a constant and is
not modeled). -/
structure Agent where
  role : Str
  goal : Str
  backstory : Str
deriving DecidableEq

/-- One entry of the parsed `tasks.yaml` mapping: `description` and
`agent` are accessed with `[...]` (required), `expected_output` with
`.get` and `dependencies` behind an `in` test (optional). -/
structure TaskConfig where
  description : Str
  expected_output : Option Str
  agent : Str
  dependencies : Option (List Str)
deriving DecidableEq

/-- Build-time failure of the task graph: the spec's
`UnresolvedAgentError`, raised in the source as a `KeyError` on
`agents[task_config['agent']]`. -/
inductive BuildError where
  | unresolvedAgent (name : Str)
deriving DecidableEq

/-- A constructed `Task`: its description, expected-output hint, bound
agent, and the *already built* dependency units attached to it. -/
inductive ExecUnit where
  | mk (description : Str) (expected_output : Option Str) (agent : Agent)
      (dependencies : List ExecUnit)

def ExecUnit.description : ExecUnit → Str
  | .mk d _ _ _ => d

def ExecUnit.expected_output : ExecUnit → Option Str
  | .mk _ e _ _ => e

def ExecUnit.agent : ExecUnit → Agent
  | .mk _ _ a _ => a

def ExecUnit.dependencies : ExecUnit → List ExecUnit
  | .mk _ _ _ ds => ds

/-- The agent-construction loop of `crew()`: one `Agent` per
configuration entry, keyed by name. -/
def buildAgents (cfg : List (Str × AgentCfg)) : List (Str × Agent) :=
  cfg.map (fun p => (p.1, ⟨p.2.role, p.2.goal, p.2.backstory⟩))

/-- The dependency-resolution loop of `crew()`: for each declared name,
keep the already-built unit if present in `task_outputs`, silently
dropping it otherwise.  An absent `dependencies` key behaves as `[]`. -/
def resolveDeps (outs : List (Str × ExecUnit)) (deps : Option (List Str)) :
    List ExecUnit :=
  (deps.getD []).filterMap (fun d => List.lookup d outs)

/-- The task-construction loop of `crew()`, iterating the task mapping
in declaration order with the running `task_outputs` map `outs`.  The
only failure is the lookup `agents[task_config['agent']]`. -/
def buildUnits (agents : List (Str × Agent)) :
    List (Str × TaskConfig) → List (Str × ExecUnit) →
    Except BuildError (List ExecUnit)
  | [], _ => .ok []
  | (name, cfg) :: rest, outs =>
    match List.lookup cfg.agent agents with
    | none => .error (.unresolvedAgent cfg.agent)
    | some ag =>
      let u : ExecUnit :=
        .mk cfg.description cfg.expected_output ag (resolveDeps outs cfg.dependencies)
      (buildUnits agents rest ((name, u) :: outs)).map (fun us => u :: us)

/-- `Codesystem.crew()` restricted to its structural output: the ordered
execution plan built from the two configuration mappings. -/
def crewPlan (agentsCfg : List (Str × AgentCfg))
    (tasksCfg : List (Str × TaskConfig)) : Except BuildError (List ExecUnit) :=
  buildUnits (buildAgents agentsCfg) tasksCfg []

/-- A fallback agent value, used only to state the total reference
builder below (never reached when every agent name resolves). -/
def defaultAgent : Agent := ⟨[], [], []⟩

/-- The unit built for one task configuration given the running
`task_outputs` map. -/
def mkExecUnit (agents : List (Str × Agent)) (outs : List (Str × ExecUnit))
    (cfg : TaskConfig) : ExecUnit :=
  .mk cfg.description cfg.expected_output
    ((List.lookup cfg.agent agents).getD defaultAgent)
    (resolveDeps outs cfg.dependencies)

/-- Total reference form of the construction loop (meaningful when every
agent name resolves). -/
def unitsOf (agents : List (Str × Agent)) :
    List (Str × TaskConfig) → List (Str × ExecUnit) → List ExecUnit
  | [], _ => []
  | (name, cfg) :: rest, outs =>
    mkExecUnit agents outs cfg ::
      unitsOf agents rest ((name, mkExecUnit agents outs cfg) :: outs)

/-- The `task_outputs` map after processing a list of task
configurations. -/
def outsOf (agents : List (Str × Agent)) :
    List (Str × TaskConfig) → List (Str × ExecUnit) → List (Str × ExecUnit)
  | [], outs => outs
  | (name, cfg) :: rest, outs =>
    outsOf agents rest ((name, mkExecUnit agents outs cfg) :: outs)

/-! ## Lemmas: the two readings of the escape/newline rewrites agree -/

theorem subEscSpec_cons (b : Char) (rep : Str) (c : Char) (l : Str) :
    subEscSpec b rep (c :: l) =
      if c = '\\' ∧ (subEscSpec b rep l).head? = some b then
        rep ++ (subEscSpec b rep l).tail
      else c :: subEscSpec b rep l := rfl

theorem subEscSpec_head (b : Char) (rep : Str) (hb : b ≠ '\\')
    (hrep : rep.head? = some ' ') (hbs : b ≠ ' ') (c : Char) (l : Str) :
    ((subEscSpec b rep (c :: l)).head? = some b) ↔ c = b := by
  rw [subEscSpec_cons]
  split
  · next hcond =>
    cases rep with
    | nil => simp at hrep
    | cons r rt =>
      have hr : r = ' ' := by simpa using hrep
      subst hr
      simp only [List.cons_append, List.head?_cons, Option.some.injEq]
      constructor
      · intro hsb; exact absurd hsb.symm hbs
      · intro hcb; exact absurd (hcb ▸ hcond.1) hb
  · simp

theorem replPair_eq_subEscSpec (b : Char) (rep : Str) (hb : b ≠ '\\')
    (hrep : rep.head? = some ' ') (hbs : b ≠ ' ') (l : Str) :
    replPair '\\' b rep l = subEscSpec b rep l := by
  induction l using replPair.induct '\\' b rep with
  | case1 => rfl
  | case2 c =>
    rw [subEscSpec_cons]
    rw [if_neg (by simp [subEscSpec])]
    rfl
  | case3 c1 c2 rest h ih =>
    rw [replPair, if_pos h, subEscSpec_cons,
      if_pos ⟨h.1, (subEscSpec_head b rep hb hrep hbs c2 rest).mpr h.2⟩]
    have htl : (subEscSpec b rep (c2 :: rest)).tail = subEscSpec b rep rest := by
      rw [subEscSpec_cons, if_neg (fun hc => hb (h.2 ▸ hc.1))]
      rfl
    rw [htl, ih]
  | case4 c1 c2 rest h ih =>
    rw [replPair, if_neg h, subEscSpec_cons,
      if_neg (fun hc => h ⟨hc.1, (subEscSpec_head b rep hb hrep hbs c2 rest).mp hc.2⟩), ih]

theorem collapseNlSpec_cons (c : Char) (l : Str) :
    collapseNlSpec (c :: l) =
      if c = '\n' ∧ (collapseNlSpec l).head? = some '\n' then collapseNlSpec l
      else c :: collapseNlSpec l := rfl

theorem collapseNlSpec_head (c : Char) (l : Str) :
    (collapseNlSpec (c :: l)).head? = some c := by
  rw [collapseNlSpec_cons]
  split
  · next h => rw [h.2, h.1]
  · simp

theorem collapseNl_eq_collapseNlSpec (l : Str) : collapseNl l = collapseNlSpec l := by
  induction l using collapseNl.induct with
  | case1 => rfl
  | case2 c =>
    rw [collapseNlSpec_cons, if_neg (by simp [collapseNlSpec])]
    rfl
  | case3 c1 c2 rest h ih =>
    rw [collapseNl, if_pos h, collapseNlSpec_cons,
      if_pos ⟨h.1, by rw [collapseNlSpec_head, h.2]⟩, ih]
  | case4 c1 c2 rest h ih =>
    rw [collapseNl, if_neg h, collapseNlSpec_cons,
      if_neg (fun hc => h ⟨hc.1, by
        rw [collapseNlSpec_head] at hc
        exact Option.some.inj hc.2⟩), ih]

/-- C5: For every input string, text normalization replaces each literal
two-character escape `backslash-n` with a single space and each literal
`backslash-t` with four spaces, collapses every run of two or more real
line-break characters into one, removes every carriage-return character,
and trims leading and trailing whitespace — i.e. `clean_text` coincides
with the stage-by-stage pipeline `normalizeSpec` written from the
specification's description. -/
theorem clean_text_pipeline_refinement (l : Str) : clean_text l = normalizeSpec l := by
  unfold clean_text normalizeSpec removeCR
  rw [replPair_eq_subEscSpec 'n' litNlRep (by decide) (by decide) (by decide),
    replPair_eq_subEscSpec 't' litTabRep (by decide) (by decide) (by decide),
    collapseNl_eq_collapseNlSpec]

/-- C9: In the structured report path, the body of the `Architecture
Analysis Output` section is always the placeholder `No output available`
regardless of the worker outputs, because `generate_docx_report` reads
the key `code_test_output` while `prepare_inputs` stores the test output
under `code_test_coverage`. -/
theorem architecture_section_always_placeholder (fp cc : Str)
    (outs : List (Str × Str)) :
    (generate_docx_report (prepare_inputs fp cc outs))[8]? =
        some (DocElem.heading 1 ("Architecture Analysis Output".toList))
    ∧ (generate_docx_report (prepare_inputs fp cc outs))[9]? =
        some (DocElem.para noOutput) := by
  exact ⟨rfl, rfl⟩

/-- C8: In structured synthesis mode, each recognized category yields
exactly one section in a fixed order, and when a category's output is
absent the section body equals the literal placeholder `No output
available`.  (`generate_docx_report` is a total function of the inputs
mapping, so no missing-key error can be raised.) -/
theorem structured_sections_fixed_order_placeholder (inputs : List (Str × Str)) :
    sectionsOf (generate_docx_report inputs) =
      [ ("Code Analysis Output".toList,
          clean_text (getOut inputs "code_analysis_output".toList)),
        ("Security Analysis Output".toList,
          clean_text (getOut inputs "security_analysis_output".toList)),
        ("Performance Analysis Output".toList,
          clean_text (getOut inputs "performance_analysis_output".toList)),
        ("Architecture Analysis Output".toList,
          clean_text (getOut inputs "code_test_output".toList)),
        ("Best Practices Output".toList,
          clean_text (getOut inputs "best_practices_output".toList)) ]
    ∧ (List.lookup "security_analysis_output".toList inputs = none →
        (sectionsOf (generate_docx_report inputs))[1]? =
          some ("Security Analysis Output".toList, noOutput)) := by
  have hsec : sectionsOf (generate_docx_report inputs) =
      [ ("Code Analysis Output".toList,
          clean_text (getOut inputs "code_analysis_output".toList)),
        ("Security Analysis Output".toList,
          clean_text (getOut inputs "security_analysis_output".toList)),
        ("Performance Analysis Output".toList,
          clean_text (getOut inputs "performance_analysis_output".toList)),
        ("Architecture Analysis Output".toList,
          clean_text (getOut inputs "code_test_output".toList)),
        ("Best Practices Output".toList,
          clean_text (getOut inputs "best_practices_output".toList)) ] := rfl
  refine ⟨hsec, fun h => ?_⟩
  have hg : getOut inputs ("security_analysis_output".toList) = noOutput := by
    unfold getOut
    rw [h]
    rfl
  rw [hsec, hg]
  rfl

/-- C8 witness: with only a code-analysis output present, the security
section body is the placeholder. -/
theorem structured_sections_fixed_order_placeholder_witness :
    (sectionsOf (generate_docx_report
        [("code_analysis_output".toList, "ok".toList)]))[1]? =
      some ("Security Analysis Output".toList, noOutput) := by
  have h := structured_sections_fixed_order_placeholder
    [("code_analysis_output".toList, "ok".toList)]
  exact h.2 (by decide)

/-! ## Lemmas: paragraph bodies of the free-text split document -/

theorem paraBodies_append (xs ys : List DocElem) :
    paraBodies (xs ++ ys) = paraBodies xs ++ paraBodies ys :=
  List.filterMap_append ..

theorem paraBodies_sectionElems (s : Str) :
    paraBodies (sectionElems s) =
      (if pyStrip s = [] then none else (splitFirstNl s).2).toList := by
  unfold sectionElems
  by_cases hs : pyStrip s = []
  · rw [if_pos hs, if_pos hs]
    rfl
  · rw [if_neg hs, if_neg hs]
    cases hnl : (splitFirstNl s).2 with
    | none => rfl
    | some b => rfl

theorem paraBodies_flatten_sectionElems (l : List Str) :
    paraBodies ((l.map sectionElems).flatten) =
      l.filterMap (fun s => if pyStrip s = [] then none else (splitFirstNl s).2) := by
  induction l with
  | nil => rfl
  | cons s l ih =>
    rw [List.map_cons, List.flatten_cons, paraBodies_append,
      paraBodies_sectionElems, ih, List.filterMap_cons]
    cases h : (if pyStrip s = [] then none else (splitFirstNl s).2) with
    | none => simp
    | some b => simp

/-- C4 counterexample: in the free-text split mode (`save_report`) the
section body is written verbatim; for the content `"x\ry"` the written
paragraph still contains the carriage return, while `clean_text` of that
body differs from it — so the normalization function is not applied to
the body before it is written in this mode. -/
theorem save_report_body_not_normalized :
    save_report_doc ('x' :: '\r' :: 'y' :: []) =
      [DocElem.heading 0 ("Code Analysis Report".toList),
       DocElem.para ('x' :: '\r' :: 'y' :: [])]
    ∧ clean_text ('x' :: '\r' :: 'y' :: []) ≠ ('x' :: '\r' :: 'y' :: []) := by
  exact ⟨rfl, by decide⟩

/-- C4 amended: the text normalization function is applied to every
Section body in the structured mode (`generate_docx_report`), but the
free-text split mode (`save_report`) writes every Section body verbatim,
without normalization (`splitBodies` is the raw split of the content,
with no occurrence of `clean_text`). -/
theorem normalization_structured_mode_only (inputs : List (Str × Str))
    (content : Str) :
    paraBodies (generate_docx_report inputs) =
      ("File: ".toList ++ pyOptStr (List.lookup "file_name".toList inputs)) ::
        [clean_text (getOut inputs "code_analysis_output".toList),
         clean_text (getOut inputs "security_analysis_output".toList),
         clean_text (getOut inputs "performance_analysis_output".toList),
         clean_text (getOut inputs "code_test_output".toList),
         clean_text (getOut inputs "best_practices_output".toList)]
    ∧ paraBodies (save_report_doc content) = splitBodies content := by
  constructor
  · rfl
  · show paraBodies (DocElem.heading 0 _ :: DocElem.para _ :: _) = _
    rw [show ∀ (t L : Str) (X : List DocElem),
        paraBodies (DocElem.heading 0 t :: DocElem.para L :: X) = L :: paraBodies X
      from fun t L X => rfl]
    rw [paraBodies_flatten_sectionElems]
    rfl

/-! ## Lemmas: the three-character separator -/

theorem splitSections_eq_single (l : Str) (h : hasSep l = false) :
    splitSections l = [l] := by
  induction l using splitSections.induct with
  | case1 c1 c2 c3 rest hc ih =>
    exfalso
    rw [hasSep] at h
    simp [hc.1, hc.2.1, hc.2.2] at h
  | case2 c1 c2 c3 rest hc ih =>
    have h2 : hasSep (c2 :: c3 :: rest) = false := by
      rw [hasSep] at h
      exact (Bool.or_eq_false_iff.mp h).2
    rw [splitSections, if_neg hc, ih h2]
    rfl
  | case3 l hl =>
    cases l with
    | nil => rfl
    | cons a t =>
      cases t with
      | nil => rfl
      | cons b t2 =>
        cases t2 with
        | nil => rfl
        | cons c t3 => exact (hl a b c t3 rfl).elim

/-- C10: In free-text split mode a `'# '` at the very start of the
content is not a section boundary — the split happens only on the exact
three-character separator newline-hash-space — so such a heading line
stays inside the lead paragraph; the lead chunk is always emitted as a
paragraph (even when empty, e.g. the second document element is always
the lead-chunk paragraph), and later chunks that strip to empty produce
no heading and no paragraph. -/
theorem split_mode_boundary_behavior (cs content s : Str) :
    (hasSep ('#' :: ' ' :: cs) = false →
      save_report_doc ('#' :: ' ' :: cs) =
        [DocElem.heading 0 ("Code Analysis Report".toList),
         DocElem.para ('#' :: ' ' :: cs)])
    ∧ splitSections ('\n' :: '#' :: ' ' :: cs) = [] :: splitSections cs
    ∧ (save_report_doc content)[1]? =
        some (DocElem.para ((splitSections content).headD []))
    ∧ (pyStrip s = [] → sectionElems s = []) := by
  refine ⟨fun h => ?_, ?_, ?_, fun h => ?_⟩
  · unfold save_report_doc
    rw [splitSections_eq_single _ h]
    rfl
  · exact rfl
  · simp [save_report_doc]
  · unfold sectionElems
    rw [if_pos h]

/-- C10 witness: a content beginning with `'# '` stays one single lead
paragraph, and a whitespace-only later chunk contributes nothing. -/
theorem split_mode_boundary_behavior_witness :
    save_report_doc ('#' :: ' ' :: ("T\nx".toList)) =
      [DocElem.heading 0 ("Code Analysis Report".toList),
       DocElem.para ('#' :: ' ' :: ("T\nx".toList))]
    ∧ sectionElems ("  \n".toList) = [] := by
  have h := split_mode_boundary_behavior ("T\nx".toList) [] ("  \n".toList)
  exact ⟨h.1 (by decide), h.2.2.2 (by decide)⟩

/-- C6 counterexample: the hint `"."` is a non-empty, valid path, but its
final path component (and hence its stem) is empty, so the sanitized
base is empty and the artifact filename starts directly with
`_analysis_`. -/
theorem sanitized_base_empty_for_dot :
    saveReportFilename ("code_analysis_report".toList) ['.']
        ("20250101_000000".toList) =
      ("_analysis_20250101_000000.docx".toList)
    ∧ ['.'] ≠ ([] : Str)
    ∧ sanitizeBase (pathStem ['.']) = [] := by
  exact ⟨by decide, by decide, by decide⟩

/-- C6 amended: for a non-empty `name_hint` the Report Writer derives the
filename as the sanitized stem of the hint's final path component plus
`_analysis_<timestamp>`, and with an absent hint as the fixed fallback
base plus `_<timestamp>`; the sanitized base contains only alphanumeric,
underscore, and hyphen characters, and it is non-empty exactly when the
stem of the hint's final path component is non-empty (hints such as `"."`
or `"/"`, whose final component is empty, give an empty base). -/
theorem filename_derivation_amended (base hint ts : Str) :
    (∀ c ∈ sanitizeBase (pathStem hint), c.isAlphanum || c = '_' || c = '-')
    ∧ (hint ≠ [] →
        saveReportFilename base hint ts =
          sanitizeBase (pathStem hint) ++ "_analysis_".toList ++ ts
            ++ ".docx".toList)
    ∧ (hint = [] →
        saveReportFilename base hint ts = base ++ "_".toList ++ ts
          ++ ".docx".toList)
    ∧ (pathStem hint ≠ [] → sanitizeBase (pathStem hint) ≠ []) := by
  refine ⟨?_, fun h => ?_, fun h => ?_, fun h => ?_⟩
  · intro c hc
    rw [sanitizeBase, List.mem_map] at hc
    obtain ⟨c', _, rfl⟩ := hc
    unfold sanitizeChar
    split
    · next hcond => exact hcond
    · decide
  · rw [saveReportFilename, if_pos h]
  · rw [saveReportFilename, if_neg (by simp [h])]
  · intro h2
    apply h
    rw [sanitizeBase] at h2
    exact List.map_eq_nil_iff.mp h2

/-- C6 witness: for the hint `src/app.py` the derived filename is
`app_analysis_<ts>.docx` and the sanitized base is non-empty. -/
theorem filename_derivation_amended_witness :
    saveReportFilename ("code_analysis_report".toList) ("src/app.py".toList)
        ("TS".toList) = ("app_analysis_TS.docx".toList)
    ∧ sanitizeBase (pathStem ("src/app.py".toList)) ≠ [] := by
  have h := filename_derivation_amended ("code_analysis_report".toList)
    ("src/app.py".toList) ("TS".toList)
  refine ⟨?_, h.2.2.2 (by decide)⟩
  rw [h.2.1 (by decide)]
  decide

/-! ## Lemmas: the task-graph construction loop -/

theorem lookup_cons_eq {β : Type} (d k : Str) (v : β) (rest : List (Str × β)) :
    List.lookup d ((k, v) :: rest) =
      if d == k then some v else List.lookup d rest := by
  rw [List.lookup]
  split <;> simp_all

theorem buildUnits_ok (agents : List (Str × Agent))
    (cfgs : List (Str × TaskConfig)) (outs : List (Str × ExecUnit))
    (h : ∀ p ∈ cfgs, (List.lookup p.2.agent agents).isSome = true) :
    buildUnits agents cfgs outs = .ok (unitsOf agents cfgs outs) := by
  induction cfgs generalizing outs with
  | nil => rfl
  | cons p rest ih =>
    obtain ⟨name, cfg⟩ := p
    have hs : (List.lookup cfg.agent agents).isSome = true :=
      h (name, cfg) (List.mem_cons_self _ _)
    obtain ⟨ag, hag⟩ := Option.isSome_iff_exists.mp hs
    have hmk : mkExecUnit agents outs cfg =
        ExecUnit.mk cfg.description cfg.expected_output ag
          (resolveDeps outs cfg.dependencies) := by
      rw [mkExecUnit, hag]
      rfl
    have hrest : ∀ p ∈ rest, (List.lookup p.2.agent agents).isSome = true :=
      fun q hq => h q (List.mem_cons_of_mem _ hq)
    rw [buildUnits, hag]
    show Except.map _ (buildUnits agents rest _) = _
    rw [ih _ hrest, unitsOf, hmk]
    rfl

theorem unitsOf_length (agents : List (Str × Agent))
    (cfgs : List (Str × TaskConfig)) (outs : List (Str × ExecUnit)) :
    (unitsOf agents cfgs outs).length = cfgs.length := by
  induction cfgs generalizing outs with
  | nil => rfl
  | cons p rest ih =>
    obtain ⟨name, cfg⟩ := p
    rw [unitsOf, List.length_cons, List.length_cons, ih]

theorem unitsOf_getElem (agents : List (Str × Agent))
    (cfgs : List (Str × TaskConfig)) (outs : List (Str × ExecUnit))
    (i : Nat) (h : i < cfgs.length) :
    (unitsOf agents cfgs outs)[i]? =
      some (mkExecUnit agents (outsOf agents (cfgs.take i) outs) cfgs[i].2) := by
  induction cfgs generalizing outs i with
  | nil => exact absurd h (Nat.not_lt_zero i)
  | cons p rest ih =>
    obtain ⟨name, cfg⟩ := p
    cases i with
    | zero =>
      rw [unitsOf, List.getElem?_cons_zero]
      rfl
    | succ j =>
      rw [unitsOf, List.getElem?_cons_succ,
        ih ((name, mkExecUnit agents outs cfg) :: outs) j
          (Nat.lt_of_succ_lt_succ h)]
      rw [List.take_succ_cons, outsOf]
      congr 1

theorem outsOf_keys (agents : List (Str × Agent))
    (cfgs : List (Str × TaskConfig)) (outs : List (Str × ExecUnit)) :
    (outsOf agents cfgs outs).map Prod.fst =
      (cfgs.map Prod.fst).reverse ++ outs.map Prod.fst := by
  induction cfgs generalizing outs with
  | nil => rfl
  | cons p rest ih =>
    obtain ⟨name, cfg⟩ := p
    rw [outsOf, ih]
    simp

theorem lookup_eq_none_of_not_mem_keys {β : Type} (d : Str)
    (l : List (Str × β)) (h : d ∉ l.map Prod.fst) : List.lookup d l = none := by
  induction l with
  | nil => rfl
  | cons p rest ih =>
    obtain ⟨k, v⟩ := p
    have hdk : (d == k) = false := by
      cases hbk : d == k with
      | false => rfl
      | true =>
        exfalso
        apply h
        rw [List.map_cons]
        exact (beq_iff_eq.mp hbk) ▸ List.mem_cons_self _ _
    rw [lookup_cons_eq, if_neg (by simp [hdk])]
    exact ih (fun hm => h (List.mem_cons_of_mem _ hm))

/-- C1: For every task-definitions mapping in which every agent name
resolves, the build completes without error, and the `i`-th built unit's
dependency list is exactly the already-built units (those of tasks
declared strictly earlier) whose names appear in its `dependencies`
list, in that order; any name with no unit built yet — in particular a
forward reference to a later task — resolves to `none` and is therefore
omitted. -/
theorem forward_dependency_silently_dropped
    (agentsCfg : List (Str × AgentCfg)) (tasksCfg : List (Str × TaskConfig))
    (hres : ∀ p ∈ tasksCfg,
      (List.lookup p.2.agent (buildAgents agentsCfg)).isSome = true) :
    ∃ us, crewPlan agentsCfg tasksCfg = .ok us ∧
      ∀ i, (h : i < tasksCfg.length) → ∃ u, us[i]? = some u ∧
        u.dependencies =
          (tasksCfg[i].2.dependencies.getD []).filterMap
            (fun d => List.lookup d
              (outsOf (buildAgents agentsCfg) (tasksCfg.take i) []))
        ∧ ∀ d, d ∉ (tasksCfg.take i).map Prod.fst →
            List.lookup d (outsOf (buildAgents agentsCfg) (tasksCfg.take i) [])
              = none := by
  refine ⟨unitsOf (buildAgents agentsCfg) tasksCfg [],
    buildUnits_ok _ _ _ hres, ?_⟩
  intro i h
  refine ⟨mkExecUnit (buildAgents agentsCfg)
      (outsOf (buildAgents agentsCfg) (tasksCfg.take i) []) tasksCfg[i].2,
    unitsOf_getElem _ _ _ i h, rfl, ?_⟩
  intro d hd
  apply lookup_eq_none_of_not_mem_keys
  rw [outsOf_keys]
  simp only [List.map_nil, List.append_nil, List.mem_reverse]
  exact hd

/-- C1 witness: two tasks, `t1` with a forward reference to `t2`
(dropped) and `t2` depending on `t1` (kept): the built dependency lists
have lengths `[0, 1]` and the build succeeds. -/
theorem forward_dependency_silently_dropped_witness :
    (crewPlan [("coder".toList, ⟨"r".toList, "g".toList, "b".toList⟩)]
      [ ("t1".toList, ⟨"d1".toList, none, "coder".toList, some ["t2".toList]⟩),
        ("t2".toList, ⟨"d2".toList, none, "coder".toList, some ["t1".toList]⟩)
      ]).toOption.map (fun us => us.map (fun u => u.dependencies.length)) =
    some [0, 1] := by
  have h := forward_dependency_silently_dropped
    [("coder".toList, ⟨"r".toList, "g".toList, "b".toList⟩)]
    [ ("t1".toList, ⟨"d1".toList, none, "coder".toList, some ["t2".toList]⟩),
      ("t2".toList, ⟨"d2".toList, none, "coder".toList, some ["t1".toList]⟩) ]
    (by decide)
  decide

/-- C2: when every task's `agent_name` resolves, the execution plan has
exactly one unit per task definition, in declaration order, and the
`i`-th unit carries the `i`-th definition's description, expected-output
hint, and named agent. -/
theorem plan_length_and_declaration_order
    (agentsCfg : List (Str × AgentCfg)) (tasksCfg : List (Str × TaskConfig))
    (hres : ∀ p ∈ tasksCfg,
      (List.lookup p.2.agent (buildAgents agentsCfg)).isSome = true) :
    ∃ us, crewPlan agentsCfg tasksCfg = .ok us ∧
      us.length = tasksCfg.length ∧
      ∀ i, (h : i < tasksCfg.length) → ∃ u, us[i]? = some u ∧
        u.description = tasksCfg[i].2.description ∧
        u.expected_output = tasksCfg[i].2.expected_output ∧
        List.lookup tasksCfg[i].2.agent (buildAgents agentsCfg) =
          some u.agent := by
  refine ⟨unitsOf (buildAgents agentsCfg) tasksCfg [],
    buildUnits_ok _ _ _ hres, unitsOf_length _ _ _, ?_⟩
  intro i h
  refine ⟨mkExecUnit (buildAgents agentsCfg)
      (outsOf (buildAgents agentsCfg) (tasksCfg.take i) []) tasksCfg[i].2,
    unitsOf_getElem _ _ _ i h, rfl, rfl, ?_⟩
  obtain ⟨ag, hag⟩ := Option.isSome_iff_exists.mp
    (hres tasksCfg[i] (tasksCfg.getElem_mem h))
  show _ = some ((List.lookup tasksCfg[i].2.agent (buildAgents agentsCfg)).getD
    defaultAgent)
  rw [hag]
  rfl

/-- C2 witness: a two-task configuration yields a plan of length two
whose first unit has description `d1`. -/
theorem plan_length_and_declaration_order_witness :
    (crewPlan [("coder".toList, ⟨"r".toList, "g".toList, "b".toList⟩)]
      [ ("t1".toList, ⟨"d1".toList, some "e1".toList, "coder".toList, none⟩),
        ("t2".toList, ⟨"d2".toList, none, "coder".toList, some ["t1".toList]⟩)
      ]).toOption.map
      (fun us => (us.length, us.map (fun u => u.description))) =
    some (2, ["d1".toList, "d2".toList]) := by
  have h := plan_length_and_declaration_order
    [("coder".toList, ⟨"r".toList, "g".toList, "b".toList⟩)]
    [ ("t1".toList, ⟨"d1".toList, some "e1".toList, "coder".toList, none⟩),
      ("t2".toList, ⟨"d2".toList, none, "coder".toList, some ["t1".toList]⟩) ]
    (by decide)
  decide

theorem buildUnits_error (agents : List (Str × Agent))
    (cfgs : List (Str × TaskConfig)) (outs : List (Str × ExecUnit))
    (h : ∃ p ∈ cfgs, List.lookup p.2.agent agents = none) :
    ∃ a, buildUnits agents cfgs outs = .error (BuildError.unresolvedAgent a) ∧
      List.lookup a agents = none := by
  induction cfgs generalizing outs with
  | nil =>
    obtain ⟨p, hp, _⟩ := h
    exact absurd hp (List.not_mem_nil p)
  | cons q rest ih =>
    obtain ⟨name, cfg⟩ := q
    cases hag : List.lookup cfg.agent agents with
    | none =>
      refine ⟨cfg.agent, ?_, hag⟩
      rw [buildUnits, hag]
    | some ag =>
      obtain ⟨p, hp, hnone⟩ := h
      rcases List.mem_cons.mp hp with heq | hmem
      · subst heq
        rw [hag] at hnone
        exact Option.noConfusion hnone
      · obtain ⟨a, herr, hnone2⟩ := ih
          ((name, ExecUnit.mk cfg.description cfg.expected_output ag
            (resolveDeps outs cfg.dependencies)) :: outs) ⟨p, hmem, hnone⟩
        refine ⟨a, ?_, hnone2⟩
        rw [buildUnits, hag]
        show Except.map _ (buildUnits agents rest _) = _
        rw [herr]
        rfl

/-- C7: task graph construction fails with `UnresolvedAgentError`
(raised as a `KeyError` on the agents mapping in the source) whenever
some task's agent name does not resolve — the reported name is itself an
unresolved one — and otherwise it succeeds, binding each task to the
agent registered under its declared agent name. -/
theorem unresolved_agent_build_error (agentsCfg : List (Str × AgentCfg))
    (tasksCfg : List (Str × TaskConfig)) :
    ((∃ p ∈ tasksCfg, List.lookup p.2.agent (buildAgents agentsCfg) = none) →
      ∃ a, crewPlan agentsCfg tasksCfg = .error (BuildError.unresolvedAgent a) ∧
        List.lookup a (buildAgents agentsCfg) = none)
    ∧ ((∀ p ∈ tasksCfg,
          (List.lookup p.2.agent (buildAgents agentsCfg)).isSome = true) →
        ∃ us, crewPlan agentsCfg tasksCfg = .ok us ∧
          ∀ i, (h : i < tasksCfg.length) → ∃ u, us[i]? = some u ∧
            List.lookup tasksCfg[i].2.agent (buildAgents agentsCfg) =
              some u.agent) := by
  constructor
  · intro h
    exact buildUnits_error (buildAgents agentsCfg) tasksCfg [] h
  · intro hres
    refine ⟨unitsOf (buildAgents agentsCfg) tasksCfg [],
      buildUnits_ok _ _ _ hres, ?_⟩
    intro i h
    refine ⟨mkExecUnit (buildAgents agentsCfg)
        (outsOf (buildAgents agentsCfg) (tasksCfg.take i) []) tasksCfg[i].2,
      unitsOf_getElem _ _ _ i h, ?_⟩
    obtain ⟨ag, hag⟩ := Option.isSome_iff_exists.mp
      (hres tasksCfg[i] (tasksCfg.getElem_mem h))
    show _ = some ((List.lookup tasksCfg[i].2.agent
      (buildAgents agentsCfg)).getD defaultAgent)
    rw [hag]
    rfl

/-- C7 witness: a task naming the nonexistent agent `ghost` makes the
build fail with `UnresolvedAgentError ghost`. -/
theorem unresolved_agent_build_error_witness :
    crewPlan [("coder".toList, ⟨"r".toList, "g".toList, "b".toList⟩)]
      [("t1".toList, ⟨"d".toList, none, "ghost".toList, none⟩)] =
    .error (BuildError.unresolvedAgent ("ghost".toList)) := by
  have h := (unresolved_agent_build_error
    [("coder".toList, ⟨"r".toList, "g".toList, "b".toList⟩)]
    [("t1".toList, ⟨"d".toList, none, "ghost".toList, none⟩)]).1
    ⟨("t1".toList, ⟨"d".toList, none, "ghost".toList, none⟩),
      List.mem_cons_self _ _, by decide⟩
  rfl

/-! ## Lemmas: adjacent-pair freedom (towards the idempotence analysis) -/

theorem mem_of_getLastQ {l : Str} {x : Char} (h : l.getLast? = some x) :
    x ∈ l := by
  obtain ⟨hne, hx⟩ := List.mem_getLast?_eq_getLast (show x ∈ l.getLast? from h)
  exact hx ▸ List.getLast_mem hne

theorem noPair_cons_cons {a b c1 c2 : Char} {rest : Str} :
    noPair a b (c1 :: c2 :: rest) = true ↔
      ¬(c1 = a ∧ c2 = b) ∧ noPair a b (c2 :: rest) = true := by
  rw [noPair]
  simp
  tauto

theorem noPair_tail {a b c : Char} {l : Str} (h : noPair a b (c :: l) = true) :
    noPair a b l = true := by
  cases l with
  | nil => rfl
  | cons c2 rest => exact (noPair_cons_cons.mp h).2

theorem noPair_of_head_ne {a b : Char} {l : Str} (h : ∀ c ∈ l, c ≠ a) :
    noPair a b l = true := by
  induction l with
  | nil => rfl
  | cons c rest ih =>
    cases rest with
    | nil => rfl
    | cons c2 r =>
      refine noPair_cons_cons.mpr ⟨?_, ih (fun x hx => h x (List.mem_cons_of_mem _ hx))⟩
      intro hc
      exact h c (List.mem_cons_self _ _) hc.1

theorem noPair_append_right {a b : Char} {xs ys : Str}
    (h : noPair a b (xs ++ ys) = true) : noPair a b ys = true := by
  induction xs with
  | nil => exact h
  | cons c xs ih => exact ih (noPair_tail h)

theorem noPair_append_left {a b : Char} {xs ys : Str}
    (h : noPair a b (xs ++ ys) = true) : noPair a b xs = true := by
  induction xs with
  | nil => rfl
  | cons c xs ih =>
    cases xs with
    | nil => rfl
    | cons c2 r =>
      rw [List.cons_append, List.cons_append] at h
      obtain ⟨h1, h2⟩ := noPair_cons_cons.mp h
      exact noPair_cons_cons.mpr ⟨h1, ih (by rw [List.cons_append]; exact h2)⟩

theorem noPair_append_intro {a b : Char} {xs ys : Str}
    (hx : noPair a b xs = true) (hy : noPair a b ys = true)
    (hj : ∀ x, xs.getLast? = some x → x ≠ a) :
    noPair a b (xs ++ ys) = true := by
  induction xs with
  | nil => exact hy
  | cons c xs ih =>
    cases xs with
    | nil =>
      cases ys with
      | nil => rfl
      | cons y r =>
        refine noPair_cons_cons.mpr ⟨?_, hy⟩
        intro hc
        exact hj c rfl hc.1
    | cons c2 r =>
      rw [List.cons_append, List.cons_append]
      obtain ⟨h1, h2⟩ := noPair_cons_cons.mp hx
      refine noPair_cons_cons.mpr ⟨h1, ?_⟩
      rw [← List.cons_append]
      exact ih h2 (fun x hx2 => hj x (by rw [List.getLast?_cons_cons]; exact hx2))

theorem collapseNl_head (c : Char) (l : Str) :
    (collapseNl (c :: l)).head? = some c := by
  induction l generalizing c with
  | nil => rfl
  | cons c2 r ih =>
    rw [collapseNl]
    by_cases h : c = '\n' ∧ c2 = '\n'
    · rw [if_pos h, ih c2, h.1, h.2]
    · rw [if_neg h]
      rfl

theorem replPair_head (a b : Char) (rt : Str) (c : Char) (l : Str) :
    (replPair a b (' ' :: rt) (c :: l)).head? = some c ∨
      (replPair a b (' ' :: rt) (c :: l)).head? = some ' ' := by
  cases l with
  | nil => exact Or.inl rfl
  | cons c2 r =>
    rw [replPair]
    by_cases h : c = a ∧ c2 = b
    · rw [if_pos h]
      exact Or.inr rfl
    · rw [if_neg h]
      exact Or.inl rfl

theorem mem_replPair {a b : Char} {rep l : Str} {c : Char}
    (h : c ∈ replPair a b rep l) : c ∈ l ∨ c ∈ rep := by
  induction l using replPair.induct a b rep with
  | case1 => exact absurd h (List.not_mem_nil c)
  | case2 c1 =>
    exact Or.inl (by simpa [replPair] using h)
  | case3 c1 c2 rest hc ih =>
    rw [replPair, if_pos hc] at h
    rcases List.mem_append.mp h with hr | hm
    · exact Or.inr hr
    · rcases ih hm with hl | hr
      · exact Or.inl (List.mem_cons_of_mem _ (List.mem_cons_of_mem _ hl))
      · exact Or.inr hr
  | case4 c1 c2 rest hc ih =>
    rw [replPair, if_neg hc] at h
    rcases List.mem_cons.mp h with heq | hm
    · exact Or.inl (heq ▸ List.mem_cons_self _ _)
    · rcases ih hm with hl | hr
      · exact Or.inl (List.mem_cons_of_mem _ hl)
      · exact Or.inr hr

theorem mem_collapseNl {l : Str} {c : Char} (h : c ∈ collapseNl l) : c ∈ l := by
  induction l using collapseNl.induct with
  | case1 => exact absurd h (List.not_mem_nil c)
  | case2 c1 => simpa [collapseNl] using h
  | case3 c1 c2 rest hc ih =>
    rw [collapseNl, if_pos hc] at h
    exact List.mem_cons_of_mem _ (ih h)
  | case4 c1 c2 rest hc ih =>
    rw [collapseNl, if_neg hc] at h
    rcases List.mem_cons.mp h with heq | hm
    · exact heq ▸ List.mem_cons_self _ _
    · exact List.mem_cons_of_mem _ (ih hm)

theorem replPair_id {a b : Char} {rep l : Str} (h : noPair a b l = true) :
    replPair a b rep l = l := by
  induction l with
  | nil => rfl
  | cons c l ih =>
    cases l with
    | nil => rfl
    | cons c2 r =>
      obtain ⟨h1, h2⟩ := noPair_cons_cons.mp h
      rw [replPair, if_neg h1, ih h2]

theorem collapseNl_id {l : Str} (h : noPair '\n' '\n' l = true) :
    collapseNl l = l := by
  induction l with
  | nil => rfl
  | cons c l ih =>
    cases l with
    | nil => rfl
    | cons c2 r =>
      obtain ⟨h1, h2⟩ := noPair_cons_cons.mp h
      rw [collapseNl, if_neg h1, ih h2]

theorem noPair_replPair_self (a b : Char) (rt : Str) (ha : a ≠ ' ')
    (hb : b ≠ ' ') (hrt : ∀ c ∈ rt, c = ' ') (l : Str) :
    noPair a b (replPair a b (' ' :: rt) l) = true := by
  induction l using replPair.induct a b (' ' :: rt) with
  | case1 => rfl
  | case2 c => rfl
  | case3 c1 c2 rest hc ih =>
    rw [replPair, if_pos hc]
    apply noPair_append_intro
    · apply noPair_of_head_ne
      intro c hcm heq
      have hsp : c = ' ' := by
        rcases List.mem_cons.mp hcm with h1 | h2
        · exact h1
        · exact hrt c h2
      exact ha (heq ▸ hsp)
    · exact ih
    · intro z hz heq
      have hsp : z = ' ' := by
        rcases List.mem_cons.mp (mem_of_getLastQ hz) with h1 | h2
        · exact h1
        · exact hrt z h2
      exact ha (heq ▸ hsp)
  | case4 c1 c2 rest hc ih =>
    rw [replPair, if_neg hc]
    cases hX : replPair a b (' ' :: rt) (c2 :: rest) with
    | nil => rfl
    | cons z zs =>
      refine noPair_cons_cons.mpr ⟨?_, hX ▸ ih⟩
      intro hpair
      have hh := replPair_head a b rt c2 rest
      rw [hX] at hh
      simp only [List.head?_cons, Option.some.injEq] at hh
      rcases hh with h1 | h2
      · exact hc ⟨hpair.1, h1 ▸ hpair.2⟩
      · exact hb ((h2 ▸ hpair.2).symm)

theorem noPair_replPair_other (a b a2 b2 : Char) (rt : Str) (ha2 : a2 ≠ ' ')
    (hb2 : b2 ≠ ' ') (hrt : ∀ c ∈ rt, c = ' ') {l : Str}
    (h : noPair a2 b2 l = true) :
    noPair a2 b2 (replPair a b (' ' :: rt) l) = true := by
  induction l using replPair.induct a b (' ' :: rt) with
  | case1 => rfl
  | case2 c => rfl
  | case3 c1 c2 rest hc ih =>
    rw [replPair, if_pos hc]
    apply noPair_append_intro
    · apply noPair_of_head_ne
      intro c hcm heq
      have hsp : c = ' ' := by
        rcases List.mem_cons.mp hcm with h1 | h2
        · exact h1
        · exact hrt c h2
      exact ha2 (heq ▸ hsp)
    · exact ih (noPair_tail (noPair_tail h))
    · intro z hz heq
      have hsp : z = ' ' := by
        rcases List.mem_cons.mp (mem_of_getLastQ hz) with h1 | h2
        · exact h1
        · exact hrt z h2
      exact ha2 (heq ▸ hsp)
  | case4 c1 c2 rest hc ih =>
    rw [replPair, if_neg hc]
    have h2 := noPair_tail h
    cases hX : replPair a b (' ' :: rt) (c2 :: rest) with
    | nil => rfl
    | cons z zs =>
      refine noPair_cons_cons.mpr ⟨?_, hX ▸ ih h2⟩
      intro hpair
      have hh := replPair_head a b rt c2 rest
      rw [hX] at hh
      simp only [List.head?_cons, Option.some.injEq] at hh
      rcases hh with h1 | hsp
      · exact (noPair_cons_cons.mp h).1 ⟨hpair.1, h1 ▸ hpair.2⟩
      · exact hb2 ((hsp ▸ hpair.2).symm)

theorem noPair_collapseNl_other {a b : Char} {l : Str}
    (h : noPair a b l = true) : noPair a b (collapseNl l) = true := by
  induction l with
  | nil => rfl
  | cons c l ih =>
    cases l with
    | nil => rfl
    | cons c2 r =>
      obtain ⟨h1, h2⟩ := noPair_cons_cons.mp h
      rw [collapseNl]
      by_cases hc : c = '\n' ∧ c2 = '\n'
      · rw [if_pos hc]
        exact ih h2
      · rw [if_neg hc]
        cases hX : collapseNl (c2 :: r) with
        | nil => rfl
        | cons z zs =>
          refine noPair_cons_cons.mpr ⟨?_, hX ▸ ih h2⟩
          intro hpair
          have hh := collapseNl_head c2 r
          rw [hX] at hh
          simp only [List.head?_cons, Option.some.injEq] at hh
          exact h1 ⟨hpair.1, hh ▸ hpair.2⟩

theorem noPair_nl_collapseNl (l : Str) :
    noPair '\n' '\n' (collapseNl l) = true := by
  induction l with
  | nil => rfl
  | cons c l ih =>
    cases l with
    | nil => rfl
    | cons c2 r =>
      rw [collapseNl]
      by_cases hc : c = '\n' ∧ c2 = '\n'
      · rw [if_pos hc]
        exact ih
      · rw [if_neg hc]
        cases hX : collapseNl (c2 :: r) with
        | nil => rfl
        | cons z zs =>
          refine noPair_cons_cons.mpr ⟨?_, hX ▸ ih⟩
          intro hpair
          have hh := collapseNl_head c2 r
          rw [hX] at hh
          simp only [List.head?_cons, Option.some.injEq] at hh
          exact hc ⟨hpair.1, hh ▸ hpair.2⟩

theorem rstrip_decomp (p : Char → Bool) (m : Str) :
    m = (m.reverse.dropWhile p).reverse ++ (m.reverse.takeWhile p).reverse := by
  conv_lhs => rw [← List.reverse_reverse m]
  rw [← List.reverse_append, List.takeWhile_append_dropWhile]

theorem pyStrip_decomp (l : Str) :
    ∃ s t, l = s ++ pyStrip l ++ t ∧ l.dropWhile isPySpace = pyStrip l ++ t := by
  have h2 : l.dropWhile isPySpace = pyStrip l ++
      ((l.dropWhile isPySpace).reverse.takeWhile isPySpace).reverse :=
    rstrip_decomp isPySpace (l.dropWhile isPySpace)
  refine ⟨l.takeWhile isPySpace,
    ((l.dropWhile isPySpace).reverse.takeWhile isPySpace).reverse, ?_, h2⟩
  conv_lhs => rw [← List.takeWhile_append_dropWhile isPySpace l, h2]
  rw [List.append_assoc]

theorem noPair_pyStrip {a b : Char} {l : Str} (h : noPair a b l = true) :
    noPair a b (pyStrip l) = true := by
  obtain ⟨s, t, hdec, -⟩ := pyStrip_decomp l
  rw [hdec, List.append_assoc] at h
  exact noPair_append_left (noPair_append_right h)

theorem mem_pyStrip {l : Str} {c : Char} (h : c ∈ pyStrip l) : c ∈ l := by
  obtain ⟨s, t, hdec, -⟩ := pyStrip_decomp l
  rw [hdec]
  simp [h]

theorem dropWhile_head_not (p : Char → Bool) (l : Str) {x : Char}
    (h : (l.dropWhile p).head? = some x) : p x = false := by
  induction l with
  | nil => simp [List.dropWhile] at h
  | cons c l ih =>
    rw [List.dropWhile_cons] at h
    split at h
    · exact ih h
    · next hc =>
      have hcx : c = x := by simpa using h
      exact hcx ▸ (by simpa using hc)

theorem dropWhile_of_head_not (p : Char → Bool) (l : Str)
    (h : ∀ x, l.head? = some x → p x = false) : l.dropWhile p = l := by
  cases l with
  | nil => rfl
  | cons c r =>
    rw [List.dropWhile_cons]
    simp [h c rfl]

theorem dropWhile_dropWhile (p : Char → Bool) (l : Str) :
    (l.dropWhile p).dropWhile p = l.dropWhile p :=
  dropWhile_of_head_not p _ (fun _ hx => dropWhile_head_not p l hx)

theorem pyStrip_idem (l : Str) : pyStrip (pyStrip l) = pyStrip l := by
  have h1 : (pyStrip l).dropWhile isPySpace = pyStrip l := by
    apply dropWhile_of_head_not
    intro x hx
    obtain ⟨s, t, -, hpre⟩ := pyStrip_decomp l
    have hx2 : (l.dropWhile isPySpace).head? = some x := by
      rw [hpre]
      cases hP : pyStrip l with
      | nil => rw [hP] at hx; simp at hx
      | cons y ys =>
        rw [hP] at hx
        simp only [List.head?_cons, Option.some.injEq] at hx
        rw [List.cons_append]
        simp [hx]
    exact dropWhile_head_not isPySpace l hx2
  rw [pyStrip, h1]
  have h2 : (pyStrip l).reverse =
      ((l.dropWhile isPySpace).reverse).dropWhile isPySpace := by
    rw [pyStrip, List.reverse_reverse]
  rw [h2, dropWhile_dropWhile, ← h2, List.reverse_reverse]

theorem removeCR_id {l : Str} (h : '\r' ∉ l) : removeCR l = l :=
  List.filter_eq_self.mpr (fun _ hc =>
    bne_iff_ne.mpr (fun hceq => h (hceq ▸ hc)))

/-- C3 counterexample: `clean_text` is not idempotent.  On
`"a\n\r\nb"` the newline-run collapse happens before the carriage
return is removed, so the first pass yields `"a\n\nb"` and the second
pass collapses the newly adjacent newlines to `"a\nb"`. -/
theorem clean_text_not_idempotent :
    clean_text (clean_text ('a' :: '\n' :: '\r' :: '\n' :: 'b' :: [])) ≠
      clean_text ('a' :: '\n' :: '\r' :: '\n' :: 'b' :: []) := by
  decide

/-- C3 amended: text normalization is idempotent on every input free of
carriage-return characters (the counterexample forces this restriction);
and, unchanged from the claim, on every string free of the literal
two-character escapes `backslash-n` and `backslash-t` and free of
carriage returns, `clean_text` equals stripping with each run of
consecutive real newlines collapsed to one. -/
theorem clean_text_idempotent_amended (x : Str) :
    ('\r' ∉ x → clean_text (clean_text x) = clean_text x)
    ∧ (noPair '\\' 'n' x = true → noPair '\\' 't' x = true → '\r' ∉ x →
        clean_text x = pyStrip (collapseNl x)) := by
  constructor
  · intro hcr
    have hcr1 : '\r' ∉ replPair '\\' 'n' litNlRep x := fun hm => by
      rcases mem_replPair hm with h1 | h2
      · exact hcr h1
      · simp [litNlRep] at h2
    have hcr2 : '\r' ∉ replPair '\\' 't' litTabRep
        (replPair '\\' 'n' litNlRep x) := fun hm => by
      rcases mem_replPair hm with h1 | h2
      · exact hcr1 h1
      · simp [litTabRep] at h2
    have hcr3 : '\r' ∉ collapseNl (replPair '\\' 't' litTabRep
        (replPair '\\' 'n' litNlRep x)) := fun hm => hcr2 (mem_collapseNl hm)
    have hfid : removeCR (collapseNl (replPair '\\' 't' litTabRep
        (replPair '\\' 'n' litNlRep x))) = collapseNl (replPair '\\' 't'
        litTabRep (replPair '\\' 'n' litNlRep x)) := removeCR_id hcr3
    have hy : clean_text x = pyStrip (collapseNl (replPair '\\' 't' litTabRep
        (replPair '\\' 'n' litNlRep x))) := by
      rw [clean_text, hfid]
    have hn1 : noPair '\\' 'n' (replPair '\\' 'n' litNlRep x) = true :=
      noPair_replPair_self '\\' 'n' [] (by decide) (by decide) (by decide) x
    have hn2 : noPair '\\' 'n' (replPair '\\' 't' litTabRep
        (replPair '\\' 'n' litNlRep x)) = true :=
      noPair_replPair_other '\\' 't' '\\' 'n' [' ', ' ', ' '] (by decide)
        (by decide) (by decide) hn1
    have ht2 : noPair '\\' 't' (replPair '\\' 't' litTabRep
        (replPair '\\' 'n' litNlRep x)) = true :=
      noPair_replPair_self '\\' 't' [' ', ' ', ' '] (by decide) (by decide)
        (by decide) (replPair '\\' 'n' litNlRep x)
    have hyn : noPair '\\' 'n' (clean_text x) = true := by
      rw [hy]
      exact noPair_pyStrip (noPair_collapseNl_other hn2)
    have hyt : noPair '\\' 't' (clean_text x) = true := by
      rw [hy]
      exact noPair_pyStrip (noPair_collapseNl_other ht2)
    have hynl : noPair '\n' '\n' (clean_text x) = true := by
      rw [hy]
      exact noPair_pyStrip (noPair_nl_collapseNl _)
    have hycr : '\r' ∉ clean_text x := by
      rw [hy]
      exact fun hm => hcr3 (mem_pyStrip hm)
    conv_lhs => rw [clean_text]
    rw [replPair_id hyn, replPair_id hyt, collapseNl_id hynl,
      removeCR_id hycr,
      hy, pyStrip_idem]
  · intro hn ht hcr
    have hcrc : '\r' ∉ collapseNl x := fun hm => hcr (mem_collapseNl hm)
    rw [clean_text, replPair_id hn, replPair_id ht, removeCR_id hcrc]

/-- C3 witness: on `"  a\n\nb "` (carriage-return-free and free of
literal escapes) normalization is idempotent and equals
strip-of-collapsed-newlines. -/
theorem clean_text_idempotent_amended_witness :
    clean_text (clean_text ("  a\n\nb ".toList)) =
      clean_text ("  a\n\nb ".toList)
    ∧ clean_text ("  a\n\nb ".toList) =
      pyStrip (collapseNl ("  a\n\nb ".toList)) := by
  have h := clean_text_idempotent_amended ("  a\n\nb ".toList)
  exact ⟨h.1 (by decide), h.2 (by decide) (by decide) (by decide)⟩
